import Mathlib

/-!
Verification of the N-Queens CSP solver (`src/main.py`, class `NQueensCSP`)
and the hand-rolled binary min-heap (`src/models/min_heap.py`, class
`ManualMinHeap`).

The Python code is shallowly embedded: the assignment dictionary
`linha -> coluna` becomes an insertion-ordered association list, the
unassigned-row set (a CPython set of small consecutive ints, which iterates
in ascending order) becomes an ascending list, and Python's stable
`list.sort` becomes Mathlib's stable `insertionSort`.  The recursive
`_backtrack` is embedded with an explicit fuel parameter bounding the
recursion depth; `solve` supplies fuel `n + 1`, which is never exhausted
because every recursion level removes one row from the unassigned set.
-/

/-- Solver configuration: the constructor arguments of `NQueensCSP` that the
search depends on (board size and the three heuristic toggles). -/
structure NQueensCSP where
  n : Nat
  use_vrm : Bool
  use_grau : Bool
  use_vmr : Bool

/-- The Python dict `assignment` (`linha -> coluna`) as an insertion-ordered
association list with unique keys. -/
abbrev Assignment := List (Nat × Nat)

namespace NQueensCSP

/-- The key set of an assignment dict (`assignment.keys()`). -/
def keysOf (a : Assignment) : List Nat := a.map Prod.fst

/-- Python dict update `a[k] = v`: overwrite in place if `k` is present,
append otherwise (insertion order preserved, as in CPython). -/
def dictInsert (a : Assignment) (k v : Nat) : Assignment :=
  if (keysOf a).contains k then
    a.map (fun p => if p.1 = k then (k, v) else p)
  else a ++ [(k, v)]

/-- `NQueensCSP.is_safe_assignment`: a queen may go at `(linha, col)` iff no
assigned queen shares the column or a diagonal. -/
def is_safe_assignment (assignment : Assignment) (linha col : Nat) : Bool :=
  assignment.all fun p =>
    !(p.2 == col) &&
      !(((p.1 : Int) - (linha : Int)).natAbs == ((p.2 : Int) - (col : Int)).natAbs)

/-- `NQueensCSP.get_available_colunas`: the columns `0..n-1` that are safe for
`linha`, in ascending order. -/
def get_available_colunas (csp : NQueensCSP) (assignment : Assignment)
    (linha : Nat) : List Nat :=
  (List.range csp.n).filter (fun col => is_safe_assignment assignment linha col)

/-- `NQueensCSP.count_conflicts`: simulate placing `(linha, col)` on a copy of
the dict and count, over every still-unassigned row and every column, the
positions that become unsafe. -/
def count_conflicts (csp : NQueensCSP) (assignment : Assignment)
    (linha col : Nat) : Nat :=
  let temp_assignment := dictInsert assignment linha col
  (List.range csp.n).foldl
    (fun conflicts future_linha =>
      if (keysOf temp_assignment).contains future_linha then conflicts
      else
        (List.range csp.n).foldl
          (fun c future_col =>
            if is_safe_assignment temp_assignment future_linha future_col then c
            else c + 1)
          conflicts)
    0

/-- Loop body of `vrm_heuristic`: runs the remaining rows against the current
best row and its (finite) minimum value count.  The Python loop starts from
`min_values = inf`, so the first row always becomes the initial best. -/
def vrmGo (csp : NQueensCSP) (assignment : Assignment) :
    List Nat → Nat → Nat → Nat
  | [], best_linha, _ => best_linha
  | linha :: rest, best_linha, min_values =>
    let available := (csp.get_available_colunas assignment linha).length
    if available < min_values then vrmGo csp assignment rest linha available
    else vrmGo csp assignment rest best_linha min_values

/-- `NQueensCSP.vrm_heuristic` (MRV): the first-encountered unassigned row
with the fewest available columns; `None` when the set is empty. -/
def vrm_heuristic (csp : NQueensCSP) (assignment : Assignment)
    (unassigned_linhas : List Nat) : Option Nat :=
  match unassigned_linhas with
  | [] => none
  | linha :: rest =>
    some (vrmGo csp assignment rest linha
      ((csp.get_available_colunas assignment linha).length))

/-- `NQueensCSP.grau_heuristic` (degree): the smallest unassigned row.
Python's `min` raises on an empty set; that is modelled as `none`. -/
def grau_heuristic (csp : NQueensCSP) (board : Assignment)
    (unassigned_linhas : List Nat) : Option Nat :=
  unassigned_linhas.min?

/-- Loop body of the both-heuristics branch of `combined_heuristic`:
collects every row tying the running minimum value count, resetting the
candidate list whenever the minimum strictly improves. -/
def candGo (csp : NQueensCSP) (assignment : Assignment) :
    List Nat → List Nat → Nat → List Nat
  | [], candidates, _ => candidates
  | linha :: rest, candidates, min_values =>
    let available := (csp.get_available_colunas assignment linha).length
    if available < min_values then candGo csp assignment rest [linha] available
    else if available = min_values then
      candGo csp assignment rest (candidates ++ [linha]) min_values
    else candGo csp assignment rest candidates min_values

/-- `NQueensCSP.combined_heuristic`: dispatch on the two row-selection flags;
with both enabled, MRV candidates are tie-broken by the smallest row index
(`min(candidates)`).  Python raises on an empty set in the `min` branches and
returns `None` from `vrm_heuristic`; both are modelled as `none` (the solver
never reaches this situation). -/
def combined_heuristic (csp : NQueensCSP) (assignment : Assignment)
    (unassigned_linhas : List Nat) : Option Nat :=
  if !csp.use_vrm && !csp.use_grau then unassigned_linhas.min?
  else if csp.use_vrm && !csp.use_grau then
    csp.vrm_heuristic assignment unassigned_linhas
  else if !csp.use_vrm && csp.use_grau then
    csp.grau_heuristic assignment unassigned_linhas
  else
    match unassigned_linhas with
    | [] => none
    | linha :: rest =>
      (candGo csp assignment rest [linha]
        ((csp.get_available_colunas assignment linha).length)).min?

/-- `NQueensCSP.vmr_order_values` (LCV): when enabled, pair each available
column with its `count_conflicts` lookahead cost and stable-sort ascending by
that cost (Python's `list.sort(key=...)` is stable; `insertionSort` is its
stable model). -/
def vmr_order_values (csp : NQueensCSP) (assignment : Assignment)
    (linha : Nat) (available_cols : List Nat) : List Nat :=
  if !csp.use_vmr then available_cols
  else
    let col_conflicts :=
      available_cols.map (fun col => (col, csp.count_conflicts assignment linha col))
    (List.insertionSort (fun p q : Nat × Nat => p.2 ≤ q.2) col_conflicts).map
      Prod.fst

/-- `NQueensCSP._backtrack`: recursive backtracking with forward checking.
`fuel` bounds the recursion depth; it is an embedding artifact only (each
real recursion level removes a row from `unassigned_linhas`, so the fuel
`n + 1` supplied by `solve` is never exhausted).  The `none` on heuristic
failure models the Python exception raised when row selection is attempted
on an empty set, which is unreachable from `solve`.  The
`for col in ordered_cols` loop, whose body either falls through to the next
column (forward-check failure, or recursive call returning `None`) or
returns the first successful recursive result, is `List.findSome?` over the
ordered columns. -/
def _backtrack (csp : NQueensCSP) :
    (fuel : Nat) → Assignment → List Nat → Option Assignment
  | fuel, assignment, unassigned_linhas =>
    if assignment.length = csp.n then some assignment
    else
      match fuel with
      | 0 => none
      | fuel' + 1 =>
        match csp.combined_heuristic assignment unassigned_linhas with
        | none => none
        | some linha =>
          let available_cols := csp.get_available_colunas assignment linha
          if available_cols.isEmpty then none
          else
            (csp.vmr_order_values assignment linha available_cols).findSome?
              (fun col =>
                let new_assignment := dictInsert assignment linha col
                let new_unassigned := unassigned_linhas.erase linha
                if new_unassigned.all (fun fl =>
                    !(csp.get_available_colunas new_assignment fl).isEmpty) then
                  _backtrack csp fuel' new_assignment new_unassigned
                else none)

/-- `NQueensCSP.solve` (core search only, printing and the visualization
graph stripped): `_backtrack` from the empty assignment and the full
unassigned-row set `set(range(n))`, which iterates ascending. -/
def solve (csp : NQueensCSP) : Option Assignment :=
  csp._backtrack (csp.n + 1) [] (List.range csp.n)

/-- The mutable state created by `NQueensCSP.__init__` (rows/columns typed as
they are in Python, where `n` may be any integer).  The constructor performs
no validation, so every field is a plain copy or a fixed initial value. -/
structure InitState where
  n : Int
  use_vrm : Bool
  use_grau : Bool
  use_vmr : Bool
  nodes_explored : Nat
  backtracks : Nat
  solution : Option Assignment
  assignment : Assignment

/-- `NQueensCSP.__init__` embedded with an explicit failure channel
(`Except`), so that "rejects at construction" is statable.  The source body
is straight-line field initialization with no check and no `raise`, hence it
always returns `.ok`. -/
def init (n : Int) (use_vrm use_grau use_vmr : Bool) : Except String InitState :=
  .ok ⟨n, use_vrm, use_grau, use_vmr, 0, 0, none, []⟩

end NQueensCSP

namespace ManualMinHeap

/-- Python's simultaneous swap `l[i], l[j] = l[j], l[i]` (identity when an
index is out of range; all call sites stay in range). -/
def listSwap {α : Type} (l : List α) (i j : Nat) : List α :=
  match l[i]?, l[j]? with
  | some a, some b => (l.set i b).set j a
  | _, _ => l

/-- The comparison `heap[i] < heap[j]` (false when out of range; all call
sites guard the bounds). -/
def hlt {α : Type} [LinearOrder α] (l : List α) (i j : Nat) : Bool :=
  match l[i]?, l[j]? with
  | some a, some b => decide (a < b)
  | _, _ => false

/-- Loop body of `ManualMinHeap._bubble_up`, with fuel bounding the ascent
(the index strictly decreases at each step, so fuel `index + 1` is never
exhausted). -/
def bubble_up_go {α : Type} [LinearOrder α] : Nat → List α → Nat → List α
  | 0, heap, _ => heap
  | fuel + 1, heap, index =>
    if 0 < index ∧ hlt heap index ((index - 1) / 2) then
      bubble_up_go fuel (listSwap heap index ((index - 1) / 2)) ((index - 1) / 2)
    else heap

/-- `ManualMinHeap._bubble_up`: swap with the parent while strictly smaller.
Python computes `parent_index = (index - 1) // 2` and short-circuits on
`index > 0`, so the parent access is always in range. -/
def bubble_up {α : Type} [LinearOrder α] (heap : List α) (index : Nat) :
    List α :=
  bubble_up_go (index + 1) heap index

/-- `ManualMinHeap.push`: append, then bubble the last slot up. -/
def push {α : Type} [LinearOrder α] (heap : List α) (item : α) : List α :=
  bubble_up (heap ++ [item]) ((heap ++ [item]).length - 1)

/-- Loop body of `ManualMinHeap._bubble_down`, with fuel bounding the
descent.  `smallest` is computed exactly as in the source: first against the
left child, then the right child against the intermediate winner. -/
def bubble_down_go {α : Type} [LinearOrder α] :
    Nat → List α → Nat → List α
  | 0, heap, _ => heap
  | fuel + 1, heap, index =>
    let size := heap.length
    let left_child := 2 * index + 1
    let right_child := 2 * index + 2
    let s1 := if left_child < size ∧ hlt heap left_child index then left_child
      else index
    let smallest := if right_child < size ∧ hlt heap right_child s1 then
        right_child
      else s1
    if smallest ≠ index then
      bubble_down_go fuel (listSwap heap index smallest) smallest
    else heap

/-- `ManualMinHeap._bubble_down`: the index strictly increases and stays
below the (constant) length, so fuel `heap.length` is never exhausted. -/
def bubble_down {α : Type} [LinearOrder α] (heap : List α) (index : Nat) :
    List α :=
  bubble_down_go heap.length heap index

/-- `ManualMinHeap.pop`: `None` on empty; on a singleton, remove it; else
return the root, move the last element into the root slot and bubble it
down.  Returns the popped value together with the new heap contents. -/
def pop {α : Type} [LinearOrder α] (heap : List α) : Option α × List α :=
  match heap with
  | [] => (none, [])
  | [x] => (some x, [])
  | root :: second :: rest =>
    let last := (second :: rest).getLast (List.cons_ne_nil _ _)
    let shrunk := (root :: second :: rest).dropLast
    (some root, bubble_down (shrunk.set 0 last) 0)

/-- `ManualMinHeap.is_not_empty`. -/
def is_not_empty {α : Type} [LinearOrder α] (heap : List α) : Bool :=
  decide (0 < heap.length)

/-- The binary min-heap shape invariant: every parent is `≤` both children.
The empty heap of a fresh `ManualMinHeap()` satisfies it vacuously, and
`push`/`pop` preserve it, so it holds of every reachable heap state. -/
def IsMinHeap {α : Type} [LinearOrder α] (l : List α) : Prop :=
  ∀ i j : Nat, (hi : i < l.length) → (hj : j < l.length) →
    (j = 2 * i + 1 ∨ j = 2 * i + 2) → l.get ⟨i, hi⟩ ≤ l.get ⟨j, hj⟩

/-- Heap shape except possibly at the edge pointing into position `i` (the
state maintained while `_bubble_up` ascends: position `i` may still be
smaller than its parent). -/
def UpInv {α : Type} [LinearOrder α] (l : List α) (i : Nat) : Prop :=
  ∀ p c : Nat, (hp : p < l.length) → (hc : c < l.length) →
    (c = 2 * p + 1 ∨ c = 2 * p + 2) → c ≠ i → l.get ⟨p, hp⟩ ≤ l.get ⟨c, hc⟩

/-- Heap shape except possibly at the edges pointing out of position `i`
(the state maintained while `_bubble_down` descends: position `i` may still
exceed its children). -/
def DownInv {α : Type} [LinearOrder α] (l : List α) (i : Nat) : Prop :=
  ∀ p c : Nat, (hp : p < l.length) → (hc : c < l.length) →
    (c = 2 * p + 1 ∨ c = 2 * p + 2) → p ≠ i → l.get ⟨p, hp⟩ ≤ l.get ⟨c, hc⟩

/-- Side invariant shared by both bubbling directions: the parent of the
distinguished position `i` (when it exists) is already `≤` the children of
`i`, so a swap across `i` cannot break the order locally. -/
def ParentBelowInv {α : Type} [LinearOrder α] (l : List α) (i : Nat) : Prop :=
  0 < i → ∀ c : Nat, (hc : c < l.length) →
    (c = 2 * i + 1 ∨ c = 2 * i + 2) → ∀ hp : (i - 1) / 2 < l.length,
      l.get ⟨(i - 1) / 2, hp⟩ ≤ l.get ⟨c, hc⟩

end ManualMinHeap

/-! ## Statement vocabulary for the solver claims -/

namespace NQueensCSP

/-- The pairwise safety invariant of the spec (§3): any two entries of a
valid assignment differ in column and are not on a shared diagonal. -/
def ValidA (a : Assignment) : Prop :=
  ∀ p ∈ a, ∀ q ∈ a, p.1 ≠ q.1 →
    p.2 ≠ q.2 ∧ ((p.1 : Int) - q.1).natAbs ≠ ((p.2 : Int) - q.2).natAbs

/-- Search-state invariant of a `_backtrack` call reachable from `solve`:
the assignment keys and the unassigned rows are duplicate-free, disjoint,
bounded by `n`, and together cover `0..n-1`; stored columns are below `n`. -/
def Inv (csp : NQueensCSP) (a : Assignment) (u : List Nat) : Prop :=
  (keysOf a).Nodup ∧ u.Nodup ∧
  (∀ k ∈ keysOf a, k < csp.n) ∧ (∀ k ∈ u, k < csp.n) ∧
  (∀ k ∈ keysOf a, k ∉ u) ∧
  (∀ k, k < csp.n → k ∈ keysOf a ∨ k ∈ u) ∧
  (∀ p ∈ a, p.2 < csp.n)

/-- A complete non-attacking placement of `n` queens exists (one queen per
row, given as the function row → column). -/
def Solvable (n : Nat) : Prop :=
  ∃ f : Nat → Nat, (∀ r, r < n → f r < n) ∧
    ∀ r1 r2, r1 < r2 → r2 < n →
      f r1 ≠ f r2 ∧ (r2 - r1 : Nat) ≠ ((f r1 : Int) - (f r2 : Int)).natAbs

/-- The total placement `f` agrees with every entry of the partial
assignment `a`. -/
def Extends (f : Nat → Nat) (a : Assignment) : Prop :=
  ∀ p ∈ a, f p.1 = p.2

/-- Reduction modulo `n` for arguments below `2n` (used by the explicit
`n ≡ 2 (mod 6)` construction). -/
def wrapN (n x : Nat) : Nat := if x < n then x else x - n

/-- An explicit non-attacking placement for even board sizes `n ≥ 4`
(0-indexed): for `n % 6 ≠ 2` the classical odd/even two-block staircase, and
for `n % 6 = 2` the Hoffman–Loessi–Moore placement, written without `% n` so
that all arithmetic stays linear. -/
def evenQueens (n r : Nat) : Nat :=
  if n % 6 = 2 then
    if r < n / 2 then wrapN n (2 * r + n / 2 - 1)
    else n - 1 - wrapN n (2 * (n - 1 - r) + n / 2 - 1)
  else
    if r < n / 2 then 2 * r + 1
    else 2 * r - n

/-- An explicit non-attacking placement for every board size `n ≥ 4`: even
sizes use `evenQueens`; odd sizes solve the even board `n - 1` (whose
placement avoids the main diagonal) and put the last queen in the corner. -/
def queensSol (n r : Nat) : Nat :=
  if n % 2 = 0 then evenQueens n r
  else if r = n - 1 then n - 1 else evenQueens (n - 1) r

end NQueensCSP

/-! ## Basic characterizations of the constraint model -/

namespace NQueensCSP

/-- Unfolded meaning of the safety check. -/
lemma is_safe_iff (a : Assignment) (linha col : Nat) :
    is_safe_assignment a linha col = true ↔
      ∀ p ∈ a, p.2 ≠ col ∧
        ((p.1 : Int) - linha).natAbs ≠ ((p.2 : Int) - col).natAbs := by
  simp [is_safe_assignment, List.all_eq_true]

/-- Membership in the available-column list. -/
lemma mem_available_iff (csp : NQueensCSP) (a : Assignment) (linha c : Nat) :
    c ∈ csp.get_available_colunas a linha ↔
      c < csp.n ∧ is_safe_assignment a linha c = true := by
  simp [get_available_colunas, List.mem_filter, List.mem_range, and_comm]

/-- The available-column list is strictly ascending. -/
lemma available_pairwise (csp : NQueensCSP) (a : Assignment) (linha : Nat) :
    (csp.get_available_colunas a linha).Pairwise (· < ·) :=
  List.Pairwise.filter _ (List.pairwise_lt_range csp.n)

end NQueensCSP

/-! ## Claim theorems: constraint model -/

/-- C5: `is_safe_assignment(assignment, row, col)` returns true iff no entry
`(assigned_row, assigned_col)` of the assignment has `assigned_col == col` or
`abs(assigned_row - row) == abs(assigned_col - col)`.  The function is pure:
in this embedding it consumes the assignment list and returns only a `Bool`,
so the absence of side effects is by construction (the source likewise only
iterates over `assignment.items()`). -/
theorem C5_is_safe_characterization (a : Assignment) (linha col : Nat) :
    NQueensCSP.is_safe_assignment a linha col = true ↔
      ∀ p ∈ a, p.2 ≠ col ∧
        ((p.1 : Int) - linha).natAbs ≠ ((p.2 : Int) - col).natAbs :=
  NQueensCSP.is_safe_iff a linha col

/-- C6: `get_available_colunas(assignment, row)` returns exactly the columns
`c` in `0..N-1` for which `is_safe_assignment` holds, in strictly ascending
order, and in particular never a column equal to an existing entry's column
or lying on a shared diagonal with an existing entry. -/
theorem C6_available_columns_characterization (csp : NQueensCSP)
    (a : Assignment) (linha : Nat) :
    (∀ c, c ∈ csp.get_available_colunas a linha ↔
      c < csp.n ∧ NQueensCSP.is_safe_assignment a linha c = true) ∧
    (csp.get_available_colunas a linha).Pairwise (· < ·) ∧
    (∀ c ∈ csp.get_available_colunas a linha, ∀ p ∈ a,
      p.2 ≠ c ∧ ((p.1 : Int) - linha).natAbs ≠ ((p.2 : Int) - c).natAbs) := by
  refine ⟨fun c => csp.mem_available_iff a linha c,
    csp.available_pairwise a linha, fun c hc => ?_⟩
  exact (NQueensCSP.is_safe_iff a linha c).mp
    ((csp.mem_available_iff a linha c).mp hc).2

/-! ## Claim theorems: solver entry points -/

/-- C2: for `N = 2` and `N = 3` and every combination of the three heuristic
flags, the solve run (`_backtrack` from the empty assignment and the full
unassigned-row set) returns the failure value `None`. -/
theorem C2_no_solution_n2_n3 :
    ∀ v g m : Bool,
      (NQueensCSP.mk 2 v g m).solve = none ∧
      (NQueensCSP.mk 3 v g m).solve = none := by decide

/-- C4 counterexample: the claim says construction rejects `N ≤ 0`, but
`__init__` contains no validation at all: at the concrete invalid size
`N = 0` the constructor succeeds, returning a normal solver state whose
`n` field is `0`. -/
theorem C4_counterexample_init_accepts_zero :
    NQueensCSP.init 0 true true true =
      .ok ⟨0, true, true, true, 0, 0, none, []⟩ ∧ (0 : Int) ≤ 0 :=
  ⟨rfl, le_refl 0⟩

/-- C4 (amended): `NQueensCSP.__init__` performs no validation: construction
succeeds for every `N`, including `N ≤ 0`, merely storing the arguments and
the fixed initial statistics; nothing stops an invalid configuration from
reaching the search. -/
theorem C4_amended_init_never_rejects :
    ∀ (n : Int) (v g m : Bool),
      NQueensCSP.init n v g m = .ok ⟨n, v, g, m, 0, 0, none, []⟩ :=
  fun _ _ _ _ => rfl

/-! ## Claim theorems: min-heap edge case -/

/-- C10: `ManualMinHeap.pop` on an empty heap returns `None` as a normal
value (no exception path exists in the source) and leaves the heap empty. -/
theorem C10_pop_empty_heap (α : Type) [LinearOrder α] :
    ManualMinHeap.pop ([] : List α) = (none, []) := rfl

/-! ## Claim C8: the conflict-counting lookahead -/

namespace NQueensCSP

/-- The inner `for future_col` loop: an accumulating count of unsafe
columns. -/
lemma foldl_if_count {α : Type} (q : α → Bool) :
    ∀ (l : List α) (acc : Nat),
      l.foldl (fun c x => if q x then c else c + 1) acc =
        acc + l.countP (fun x => !q x) := by
  intro l
  induction l with
  | nil => simp
  | cons x xs ih =>
    intro acc
    simp only [List.foldl_cons, List.countP_cons]
    cases hq : q x <;> simp [hq, ih] <;> omega

/-- Counting over a product list, row by row. -/
lemma countP_product {α β : Type} (pr : α × β → Bool) :
    ∀ (l₁ : List α) (l₂ : List β),
      (l₁ ×ˢ l₂).countP pr =
        (l₁.map (fun x => l₂.countP (fun y => pr (x, y)))).sum := by
  intro l₁ l₂
  induction l₁ with
  | nil => simp [List.product]
  | cons x xs ih =>
    rw [List.product_cons, List.countP_append, ih]
    simp [List.countP_map, Function.comp_def]

/-- A fold that only ever adds is the initial value plus the sum of the
increments. -/
lemma foldl_add_shift {α : Type} (g : α → Nat) :
    ∀ (l : List α) (acc : Nat),
      l.foldl (fun c x => c + g x) acc = acc + (l.map g).sum := by
  intro l
  induction l with
  | nil => simp
  | cons x xs ih => intro acc; simp [ih]; omega

end NQueensCSP

/-- C8: `count_conflicts(assignment, row, col)` returns the number of pairs
`(future_row, future_col)` with `future_row` in `0..N-1` unassigned in the
simulated assignment and `future_col` in `0..N-1` that are unsafe under the
assignment extended with `(row, col)`.  The simulated assignment is the
separate value `dictInsert a linha col` (the source builds it from
`assignment.copy()`), so the input assignment is left unchanged — in this
pure embedding the function consumes `a` and returns only the count, and no
operation of the source body writes to the original dict. -/
theorem C8_count_conflicts_counts_blocked_pairs (csp : NQueensCSP)
    (a : Assignment) (linha col : Nat) :
    csp.count_conflicts a linha col =
      ((List.range csp.n) ×ˢ (List.range csp.n)).countP
        (fun p =>
          !(NQueensCSP.keysOf (NQueensCSP.dictInsert a linha col)).contains p.1
          && !(NQueensCSP.is_safe_assignment (NQueensCSP.dictInsert a linha col)
                p.1 p.2)) := by
  unfold NQueensCSP.count_conflicts
  rw [NQueensCSP.countP_product]
  rw [List.foldl_ext _ (fun c x =>
    c + (if (NQueensCSP.keysOf (NQueensCSP.dictInsert a linha col)).contains x
      then 0
      else (List.range csp.n).countP
        (fun y => !(NQueensCSP.is_safe_assignment
          (NQueensCSP.dictInsert a linha col) x y)))) 0 ?_]
  · rw [NQueensCSP.foldl_add_shift]
    simp only [Nat.zero_add]
    congr 1
    apply List.map_congr_left
    intro x _
    cases hk : (NQueensCSP.keysOf (NQueensCSP.dictInsert a linha col)).contains x <;>
      simp [hk]
  · intro acc b _
    by_cases hk : b ∈ NQueensCSP.keysOf (NQueensCSP.dictInsert a linha col)
    · simp [hk, List.elem_eq_mem]
    · simp [hk, List.elem_eq_mem, NQueensCSP.foldl_if_count]

/-! ## Claim C7: combined heuristic with both flags enabled -/

namespace NQueensCSP

/-- Invariant of the candidate-collection loop: after processing a prefix
`u₀` whose minimum available-column count is `mv` and whose achievers of
that minimum are exactly `cs`, running the loop over `rest` yields exactly
the achievers of the overall minimum over `u₀ ++ rest`. -/
lemma candGo_mem (csp : NQueensCSP) (a : Assignment) :
    ∀ (rest u₀ cs : List Nat) (mv : Nat),
      (∀ x ∈ u₀, mv ≤ (csp.get_available_colunas a x).length) →
      (∀ x, x ∈ cs ↔ x ∈ u₀ ∧ (csp.get_available_colunas a x).length = mv) →
      (∃ x ∈ u₀, (csp.get_available_colunas a x).length = mv) →
      ∃ mv',
        (∀ x ∈ u₀ ++ rest, mv' ≤ (csp.get_available_colunas a x).length) ∧
        (∀ x, x ∈ candGo csp a rest cs mv ↔
          x ∈ u₀ ++ rest ∧ (csp.get_available_colunas a x).length = mv') ∧
        (∃ x ∈ u₀ ++ rest, (csp.get_available_colunas a x).length = mv') := by
  intro rest
  induction rest with
  | nil =>
    intro u₀ cs mv hmin hcs hne
    refine ⟨mv, ?_, ?_, ?_⟩ <;> simpa [candGo]
  | cons linha rest' ih =>
    intro u₀ cs mv hmin hcs hne
    by_cases hlt : (csp.get_available_colunas a linha).length < mv
    · have h := ih (u₀ ++ [linha]) [linha]
        ((csp.get_available_colunas a linha).length)
        (by
          intro x hx
          rcases List.mem_append.mp hx with hx | hx
          · exact le_trans (le_of_lt hlt) (hmin x hx)
          · simp at hx; subst hx; exact le_refl _)
        (by
          intro x
          simp only [List.mem_singleton, List.mem_append]
          constructor
          · rintro rfl; exact ⟨Or.inr (by simp), rfl⟩
          · rintro ⟨hx | hx, hcnt⟩
            · exact absurd (hmin x hx) (by omega)
            · simpa using hx)
        ⟨linha, by simp⟩
      rcases h with ⟨mv', h1, h2, h3⟩
      rw [List.append_assoc] at h1 h2 h3
      have hstep : candGo csp a (linha :: rest') cs mv =
          candGo csp a rest' [linha]
            ((csp.get_available_colunas a linha).length) := by
        simp only [candGo]
        rw [if_pos hlt]
      refine ⟨mv', h1, fun x => ?_, h3⟩
      rw [hstep]
      exact h2 x
    · by_cases heq : (csp.get_available_colunas a linha).length = mv
      · have h := ih (u₀ ++ [linha]) (cs ++ [linha]) mv
          (by
            intro x hx
            rcases List.mem_append.mp hx with hx | hx
            · exact hmin x hx
            · simp at hx; subst hx; omega)
          (by
            intro x
            simp only [List.mem_append, List.mem_singleton, hcs]
            constructor
            · rintro (⟨hx, hcnt⟩ | rfl)
              · exact ⟨Or.inl hx, hcnt⟩
              · exact ⟨Or.inr rfl, heq⟩
            · rintro ⟨hx | rfl, hcnt⟩
              · exact Or.inl ⟨hx, hcnt⟩
              · exact Or.inr rfl)
          (⟨linha, by simp, heq⟩)
        rcases h with ⟨mv', h1, h2, h3⟩
        rw [List.append_assoc] at h1 h2 h3
        have hstep : candGo csp a (linha :: rest') cs mv =
            candGo csp a rest' (cs ++ [linha]) mv := by
          simp only [candGo]
          rw [if_neg hlt, if_pos heq]
        refine ⟨mv', h1, fun x => ?_, h3⟩
        rw [hstep]
        exact h2 x
      · have h := ih (u₀ ++ [linha]) cs mv
          (by
            intro x hx
            rcases List.mem_append.mp hx with hx | hx
            · exact hmin x hx
            · simp at hx; subst hx; omega)
          (by
            intro x
            rw [hcs]
            simp only [List.mem_append, List.mem_singleton]
            constructor
            · rintro ⟨hx, hcnt⟩; exact ⟨Or.inl hx, hcnt⟩
            · rintro ⟨hx | rfl, hcnt⟩
              · exact ⟨hx, hcnt⟩
              · exact absurd hcnt heq)
          (by rcases hne with ⟨x, hx, hcnt⟩; exact ⟨x, by simp [hx], hcnt⟩)
        rcases h with ⟨mv', h1, h2, h3⟩
        rw [List.append_assoc] at h1 h2 h3
        have hstep : candGo csp a (linha :: rest') cs mv =
            candGo csp a rest' cs mv := by
          simp only [candGo]
          rw [if_neg hlt, if_neg heq]
        refine ⟨mv', h1, fun x => ?_, h3⟩
        rw [hstep]
        exact h2 x

end NQueensCSP

/-- C7: with both MRV (`use_vrm`) and Degree (`use_grau`) enabled,
`combined_heuristic` returns the smallest row index among the unassigned
rows whose available-column count equals the minimum available-column count
over all unassigned rows. -/
theorem C7_combined_heuristic_both_flags (csp : NQueensCSP)
    (hv : csp.use_vrm = true) (hg : csp.use_grau = true)
    (a : Assignment) (u : List Nat) (hu : u ≠ []) :
    ∃ linha, csp.combined_heuristic a u = some linha ∧ linha ∈ u ∧
      (∀ x ∈ u, (csp.get_available_colunas a linha).length ≤
        (csp.get_available_colunas a x).length) ∧
      (∀ x ∈ u, (csp.get_available_colunas a x).length =
        (csp.get_available_colunas a linha).length → linha ≤ x) := by
  match u, hu with
  | l0 :: rest, _ =>
    have h := csp.candGo_mem a rest [l0] [l0]
      ((csp.get_available_colunas a l0).length)
      (by simp) (by simp) (by simp)
    rcases h with ⟨mv', hmin, hmem, hne⟩
    set res := NQueensCSP.candGo csp a rest [l0]
      ((csp.get_available_colunas a l0).length) with hres
    have hres_ne : res ≠ [] := by
      rcases hne with ⟨x, hx, hcnt⟩
      intro hemp
      exact absurd ((hmem x).mpr ⟨by simpa using hx, hcnt⟩) (by simp [hemp])
    cases hmq : res.min? with
    | none => exact absurd (List.min?_eq_none_iff.mp hmq) hres_ne
    | some l =>
      rcases List.min?_eq_some_iff'.mp hmq with ⟨hl_res, hl_min⟩
      rcases (hmem l).mp hl_res with ⟨hl_u, hl_cnt⟩
      refine ⟨l, ?_, by simpa using hl_u, ?_, ?_⟩
      · simp only [NQueensCSP.combined_heuristic, hv, hg]
        simpa using hmq
      · intro x hx
        rw [hl_cnt]
        exact hmin x (by simpa using hx)
      · intro x hx hcnt
        exact hl_min x ((hmem x).mpr ⟨by simpa using hx, by rw [hcnt, hl_cnt]⟩)

/-- Witness for C7 at a concrete instance: `N = 4`, empty assignment, all
rows unassigned. -/
theorem C7_witness :
    ∃ linha,
      (NQueensCSP.mk 4 true true true).combined_heuristic [] [0, 1, 2, 3] =
        some linha ∧
      linha ∈ [0, 1, 2, 3] ∧
      (∀ x ∈ [0, 1, 2, 3],
        ((NQueensCSP.mk 4 true true true).get_available_colunas [] linha).length ≤
          ((NQueensCSP.mk 4 true true true).get_available_colunas [] x).length) ∧
      (∀ x ∈ [0, 1, 2, 3],
        ((NQueensCSP.mk 4 true true true).get_available_colunas [] x).length =
          ((NQueensCSP.mk 4 true true true).get_available_colunas [] linha).length →
        linha ≤ x) :=
  C7_combined_heuristic_both_flags (NQueensCSP.mk 4 true true true) rfl rfl
    [] [0, 1, 2, 3] (by decide)

/-! ## Existence of solutions for all `N ≥ 4` -/

namespace NQueensCSP

set_option maxHeartbeats 1000000 in
/-- Validity of the explicit even-board placement: columns in range, no
queen on the main diagonal, and no pair sharing a column or diagonal. -/
lemma evenQueens_valid (n : Nat) (h4 : 4 ≤ n) (he : n % 2 = 0) :
    (∀ r, r < n → evenQueens n r < n) ∧
    (∀ r, r < n → evenQueens n r ≠ r) ∧
    (∀ r1 r2, r1 < r2 → r2 < n →
      evenQueens n r1 ≠ evenQueens n r2 ∧
      (r2 - r1 : Nat) ≠ ((evenQueens n r1 : Int) - (evenQueens n r2 : Int)).natAbs) := by
  refine ⟨?_, ?_, ?_⟩
  · intro r hr
    simp only [evenQueens, wrapN]
    split_ifs <;> omega
  · intro r hr
    simp only [evenQueens, wrapN]
    split_ifs <;> omega
  · intro r1 r2 h12 h2n
    simp only [evenQueens, wrapN]
    split_ifs <;> constructor <;> omega

/-- Validity of the explicit placement for every `n ≥ 4`. -/
lemma queensSol_valid (n : Nat) (h4 : 4 ≤ n) :
    (∀ r, r < n → queensSol n r < n) ∧
    (∀ r1 r2, r1 < r2 → r2 < n →
      queensSol n r1 ≠ queensSol n r2 ∧
      (r2 - r1 : Nat) ≠ ((queensSol n r1 : Int) - (queensSol n r2 : Int)).natAbs) := by
  by_cases he : n % 2 = 0
  · obtain ⟨hb, _, hp⟩ := evenQueens_valid n h4 he
    constructor
    · intro r hr
      simp only [queensSol, if_pos he]
      exact hb r hr
    · intro r1 r2 h12 h2
      simp only [queensSol, if_pos he]
      exact hp r1 r2 h12 h2
  · have he' : (n - 1) % 2 = 0 := by omega
    obtain ⟨hb, hfp, hp⟩ := evenQueens_valid (n - 1) (by omega) he'
    constructor
    · intro r hr
      simp only [queensSol, if_neg he]
      split_ifs with hr1
      · omega
      · have := hb r (by omega)
        omega
    · intro r1 r2 h12 h2
      simp only [queensSol, if_neg he]
      have hr1ne : r1 ≠ n - 1 := by omega
      rw [if_neg hr1ne]
      split_ifs with hr2
      · have hc1 := hb r1 (by omega)
        have hc2 := hfp r1 (by omega)
        constructor <;> omega
      · exact hp r1 r2 h12 (by omega)

/-- Every board of size `n ≥ 4` has a non-attacking placement. -/
lemma solvable_of_four_le (n : Nat) (h4 : 4 ≤ n) : Solvable n := by
  obtain ⟨hb, hp⟩ := queensSol_valid n h4
  exact ⟨queensSol n, hb, hp⟩

end NQueensCSP

/-! ## Soundness and completeness of the backtracking search -/

namespace NQueensCSP

/-- The MRV loop returns its running best or a member of the remaining
list. -/
lemma vrmGo_mem (csp : NQueensCSP) (a : Assignment) :
    ∀ (rest : List Nat) (best mv : Nat),
      vrmGo csp a rest best mv = best ∨ vrmGo csp a rest best mv ∈ rest := by
  intro rest
  induction rest with
  | nil => intro best mv; exact Or.inl rfl
  | cons linha rest' ih =>
    intro best mv
    simp only [vrmGo]
    split_ifs
    · rcases ih linha ((csp.get_available_colunas a linha).length) with h | h
      · rw [h]; exact Or.inr (List.mem_cons_self _ _)
      · exact Or.inr (List.mem_cons_of_mem _ h)
    · rcases ih best mv with h | h
      · exact Or.inl h
      · exact Or.inr (List.mem_cons_of_mem _ h)

/-- Every candidate collected by the tie-break loop comes from the initial
candidates or the remaining rows. -/
lemma candGo_subset (csp : NQueensCSP) (a : Assignment) :
    ∀ (rest cs : List Nat) (mv x : Nat),
      x ∈ candGo csp a rest cs mv → x ∈ cs ∨ x ∈ rest := by
  intro rest
  induction rest with
  | nil =>
    intro cs mv x hx
    simp only [candGo] at hx
    exact Or.inl hx
  | cons linha rest' ih =>
    intro cs mv x hx
    simp only [candGo] at hx
    split_ifs at hx
    · rcases ih _ _ x hx with h | h
      · rw [List.eq_of_mem_singleton h]
        exact Or.inr (List.mem_cons_self _ _)
      · exact Or.inr (List.mem_cons_of_mem _ h)
    · rcases ih _ _ x hx with h | h
      · rcases List.mem_append.mp h with h | h
        · exact Or.inl h
        · rw [List.eq_of_mem_singleton h]
          exact Or.inr (List.mem_cons_self _ _)
      · exact Or.inr (List.mem_cons_of_mem _ h)
    · rcases ih _ _ x hx with h | h
      · exact Or.inl h
      · exact Or.inr (List.mem_cons_of_mem _ h)

/-- The tie-break loop never empties a non-empty candidate list. -/
lemma candGo_ne_nil (csp : NQueensCSP) (a : Assignment) :
    ∀ (rest cs : List Nat) (mv : Nat), cs ≠ [] →
      candGo csp a rest cs mv ≠ [] := by
  intro rest
  induction rest with
  | nil =>
    intro cs mv h
    simpa [candGo] using h
  | cons linha rest' ih =>
    intro cs mv h
    simp only [candGo]
    split_ifs
    · exact ih _ _ (by simp)
    · exact ih _ _ (by simp)
    · exact ih _ _ h

/-- The selected row is always one of the unassigned rows. -/
lemma combined_heuristic_mem (csp : NQueensCSP) (a : Assignment)
    (u : List Nat) (linha : Nat)
    (h : csp.combined_heuristic a u = some linha) : linha ∈ u := by
  unfold combined_heuristic at h
  split_ifs at h
  · exact (List.min?_eq_some_iff'.mp h).1
  · cases u with
    | nil => simp [vrm_heuristic] at h
    | cons l0 rest =>
      simp only [vrm_heuristic] at h
      injection h with h
      rcases vrmGo_mem csp a rest l0
          ((csp.get_available_colunas a l0).length) with h' | h'
      · rw [← h, h']
        exact List.mem_cons_self _ _
      · rw [← h]
        exact List.mem_cons_of_mem _ h'
  · unfold grau_heuristic at h
    exact (List.min?_eq_some_iff'.mp h).1
  · cases u with
    | nil => simp at h
    | cons l0 rest =>
      have hm := (List.min?_eq_some_iff'.mp h).1
      rcases candGo_subset csp a rest [l0] _ linha hm with h' | h'
      · rw [List.eq_of_mem_singleton h']
        exact List.mem_cons_self _ _
      · exact List.mem_cons_of_mem _ h'

/-- For a non-empty unassigned set the heuristic always selects a row. -/
lemma combined_heuristic_isSome (csp : NQueensCSP) (a : Assignment)
    (u : List Nat) (hu : u ≠ []) :
    ∃ l, csp.combined_heuristic a u = some l := by
  unfold combined_heuristic
  split_ifs
  · cases hmq : u.min? with
    | none => exact absurd (List.min?_eq_none_iff.mp hmq) hu
    | some l => exact ⟨l, rfl⟩
  · cases u with
    | nil => exact absurd rfl hu
    | cons l0 rest => exact ⟨_, rfl⟩
  · unfold grau_heuristic
    cases hmq : u.min? with
    | none => exact absurd (List.min?_eq_none_iff.mp hmq) hu
    | some l => exact ⟨l, rfl⟩
  · cases u with
    | nil => exact absurd rfl hu
    | cons l0 rest =>
      have hne := candGo_ne_nil csp a rest [l0]
        ((csp.get_available_colunas a l0).length) (by simp)
      cases hmq : (candGo csp a rest [l0]
          ((csp.get_available_colunas a l0).length)).min? with
      | none => exact absurd (List.min?_eq_none_iff.mp hmq) hne
      | some l => exact ⟨l, hmq⟩

/-- LCV reordering is a permutation of the available columns. -/
lemma vmr_perm (csp : NQueensCSP) (a : Assignment) (linha : Nat)
    (cols : List Nat) : (csp.vmr_order_values a linha cols).Perm cols := by
  unfold vmr_order_values
  split_ifs
  · exact List.Perm.refl _
  · refine List.Perm.trans
      (List.Perm.map Prod.fst (List.perm_insertionSort _ _)) ?_
    rw [List.map_map]
    exact (List.map_id cols).symm ▸ List.Perm.refl _

/-- Safety is antitone in the assignment: fewer queens, fewer attacks. -/
lemma is_safe_of_subset (a a' : Assignment) (l c : Nat)
    (hsub : ∀ p ∈ a', p ∈ a) (h : is_safe_assignment a l c = true) :
    is_safe_assignment a' l c = true := by
  rw [is_safe_iff] at h ⊢
  exact fun p hp => h p (hsub p hp)

/-- Inserting a fresh key into the dict appends the pair. -/
lemma dictInsert_of_not_mem (a : Assignment) (k v : Nat)
    (h : k ∉ keysOf a) : dictInsert a k v = a ++ [(k, v)] := by
  unfold dictInsert
  rw [if_neg]
  simp only [List.contains, List.elem_eq_mem]
  simpa using h

/-- Keys of an extended assignment. -/
lemma keysOf_append (a : Assignment) (k v : Nat) :
    keysOf (a ++ [(k, v)]) = keysOf a ++ [k] := by
  simp [keysOf]

/-- A total valid placement is safe for any row not yet assigned. -/
lemma extends_safe (csp : NQueensCSP) (f : Nat → Nat)
    (hf2 : ∀ r1 r2, r1 < r2 → r2 < csp.n →
      f r1 ≠ f r2 ∧ (r2 - r1 : Nat) ≠ ((f r1 : Int) - (f r2 : Int)).natAbs)
    (a : Assignment) (linha : Nat)
    (hext : Extends f a)
    (hkeys : ∀ k ∈ keysOf a, k < csp.n)
    (hne : ∀ k ∈ keysOf a, k ≠ linha)
    (hl : linha < csp.n) :
    is_safe_assignment a linha (f linha) = true := by
  rw [is_safe_iff]
  intro p hp
  have hkey : p.1 ∈ keysOf a := List.mem_map_of_mem Prod.fst hp
  have hv : f p.1 = p.2 := hext p hp
  have hb : p.1 < csp.n := hkeys _ hkey
  have hne' : p.1 ≠ linha := hne _ hkey
  rw [← hv]
  rcases Nat.lt_or_ge p.1 linha with hlt | hge
  · obtain ⟨hc, hd⟩ := hf2 p.1 linha hlt hl
    exact ⟨hc, by omega⟩
  · have hlt : linha < p.1 := by omega
    obtain ⟨hc, hd⟩ := hf2 linha p.1 hlt hb
    exact ⟨fun hh => hc hh.symm, by omega⟩

/-- The search-state invariant survives placing a queen on an unassigned row
with an in-range column. -/
lemma Inv_extend (csp : NQueensCSP) (a : Assignment) (u : List Nat)
    (hInv : Inv csp a u) (linha col : Nat) (hlin : linha ∈ u)
    (hcol : col < csp.n) :
    Inv csp (a ++ [(linha, col)]) (u.erase linha) := by
  obtain ⟨h1, h2, h3, h4, h5, h6, h7⟩ := hInv
  have hnotkey : linha ∉ keysOf a := fun hk => h5 linha hk hlin
  refine ⟨?_, h2.erase linha, ?_, ?_, ?_, ?_, ?_⟩
  · rw [keysOf_append]
    rw [List.nodup_append]
    exact ⟨h1, List.nodup_singleton _, by
      intro x hx hx'
      rw [List.mem_singleton] at hx'
      exact hnotkey (hx' ▸ hx)⟩
  · intro k hk
    rw [keysOf_append, List.mem_append, List.mem_singleton] at hk
    rcases hk with hk | rfl
    · exact h3 k hk
    · exact h4 _ hlin
  · intro k hk
    exact h4 k (List.erase_subset _ _ hk)
  · intro k hk
    rw [keysOf_append, List.mem_append, List.mem_singleton] at hk
    rcases hk with hk | rfl
    · exact fun hk' => h5 k hk (List.erase_subset _ _ hk')
    · exact h2.not_mem_erase
  · intro k hk
    rcases h6 k hk with hk' | hk'
    · exact Or.inl (by rw [keysOf_append, List.mem_append]; exact Or.inl hk')
    · by_cases heq : k = linha
      · exact Or.inl (by
          rw [keysOf_append, List.mem_append, List.mem_singleton]
          exact Or.inr heq)
      · exact Or.inr (h2.mem_erase_iff.mpr ⟨heq, hk'⟩)
  · intro p hp
    rcases List.mem_append.mp hp with hp | hp
    · exact h7 p hp
    · rw [List.eq_of_mem_singleton hp]
      exact hcol

/-- The pairwise validity invariant survives a safe placement on a fresh
row. -/
lemma ValidA_extend (a : Assignment) (linha col : Nat)
    (hV : ValidA a) (hfresh : ∀ p ∈ a, p.1 ≠ linha)
    (hsafe : is_safe_assignment a linha col = true) :
    ValidA (a ++ [(linha, col)]) := by
  rw [is_safe_iff] at hsafe
  intro p hp q hq hne
  rcases List.mem_append.mp hp with hp | hp <;>
    rcases List.mem_append.mp hq with hq | hq
  · exact hV p hp q hq hne
  · rw [List.eq_of_mem_singleton hq]
    obtain ⟨hc, hd⟩ := hsafe p hp
    exact ⟨hc, hd⟩
  · rw [List.eq_of_mem_singleton hp]
    obtain ⟨hc, hd⟩ := hsafe q hq
    exact ⟨fun h => hc h.symm, by omega⟩
  · rw [List.eq_of_mem_singleton hp, List.eq_of_mem_singleton hq] at hne
    exact absurd rfl hne

/-- A duplicate-free list of `n` naturals below `n` contains every natural
below `n`. -/
lemma nodup_bounded_cover (l : List Nat) (n : Nat) (hnd : l.Nodup)
    (hb : ∀ k ∈ l, k < n) (hlen : l.length = n) : ∀ k, k < n → k ∈ l := by
  intro k hk
  have hfin : l.toFinset = Finset.range n := by
    apply Finset.eq_of_subset_of_card_le
    · intro x hx
      rw [Finset.mem_range]
      exact hb x (List.mem_toFinset.mp hx)
    · rw [Finset.card_range, List.toFinset_card_of_nodup hnd, hlen]
  rw [← List.mem_toFinset, hfin, Finset.mem_range]
  exact hk

end NQueensCSP

namespace NQueensCSP

/-- Completeness of `_backtrack` with forward checking: from any reachable
search state that a total valid placement extends, the search (with fuel
exceeding the number of unassigned rows) finds some solution.  Forward
checking is sound because safety is antitone in the assignment, so a row
left with no columns can never be completed. -/
lemma backtrack_complete (csp : NQueensCSP) (f : Nat → Nat)
    (hf1 : ∀ r, r < csp.n → f r < csp.n)
    (hf2 : ∀ r1 r2, r1 < r2 → r2 < csp.n →
      f r1 ≠ f r2 ∧ (r2 - r1 : Nat) ≠ ((f r1 : Int) - (f r2 : Int)).natAbs) :
    ∀ (fuel : Nat) (a : Assignment) (u : List Nat),
      u.length < fuel → Inv csp a u → Extends f a →
      (csp._backtrack fuel a u).isSome = true := by
  intro fuel
  induction fuel with
  | zero =>
    intro a u hlen
    exact absurd hlen (Nat.not_lt_zero _)
  | succ fuel ih =>
    intro a u hlen hInv hExt
    by_cases hbase : a.length = csp.n
    · simp [_backtrack, hbase]
    · obtain ⟨h1, h2, h3, h4, h5, h6, h7⟩ := hInv
      have hu : u ≠ [] := by
        intro hnil
        apply hbase
        have hcov : ∀ k, k < csp.n → k ∈ keysOf a := by
          intro k hk
          rcases h6 k hk with h | h
          · exact h
          · rw [hnil] at h
            simp at h
        have hfin : (keysOf a).toFinset = Finset.range csp.n := by
          apply Finset.Subset.antisymm
          · intro x hx
            rw [Finset.mem_range]
            exact h3 x (List.mem_toFinset.mp hx)
          · intro x hx
            rw [List.mem_toFinset]
            exact hcov x (Finset.mem_range.mp hx)
        have hlen' : (keysOf a).length = csp.n := by
          rw [← List.toFinset_card_of_nodup h1, hfin, Finset.card_range]
        simpa [keysOf] using hlen'
      obtain ⟨linha, hlinha⟩ := combined_heuristic_isSome csp a u hu
      have hlmem : linha ∈ u := combined_heuristic_mem csp a u linha hlinha
      have hlbound : linha < csp.n := h4 linha hlmem
      have hnotkey : linha ∉ keysOf a := fun hk => h5 linha hk hlmem
      have hsafe : is_safe_assignment a linha (f linha) = true := by
        refine extends_safe csp f hf2 a linha hExt h3 ?_ hlbound
        intro k hk heq
        exact h5 k hk (heq ▸ hlmem)
      have hfmem : f linha ∈ csp.get_available_colunas a linha :=
        (csp.mem_available_iff a linha (f linha)).mpr ⟨hf1 linha hlbound, hsafe⟩
      have hav_ne : (csp.get_available_colunas a linha).isEmpty = false := by
        cases hav : csp.get_available_colunas a linha with
        | nil => rw [hav] at hfmem; simp at hfmem
        | cons x xs => simp
      have hna : dictInsert a linha (f linha) = a ++ [(linha, f linha)] :=
        dictInsert_of_not_mem a linha (f linha) hnotkey
      have hExt' : Extends f (a ++ [(linha, f linha)]) := by
        intro p hp
        rcases List.mem_append.mp hp with hp | hp
        · exact hExt p hp
        · rw [List.eq_of_mem_singleton hp]
      have hInv' : Inv csp (a ++ [(linha, f linha)]) (u.erase linha) :=
        Inv_extend csp a u ⟨h1, h2, h3, h4, h5, h6, h7⟩ linha (f linha)
          hlmem (hf1 linha hlbound)
      have hfwd : (u.erase linha).all (fun fl =>
          !(csp.get_available_colunas (dictInsert a linha (f linha))
            fl).isEmpty) = true := by
        rw [List.all_eq_true]
        intro fl hfl
        have hfl_ne : fl ≠ linha := (h2.mem_erase_iff.mp hfl).1
        have hfl_u : fl ∈ u := (h2.mem_erase_iff.mp hfl).2
        have hfl_n : fl < csp.n := h4 fl hfl_u
        have hsafe' : is_safe_assignment (a ++ [(linha, f linha)]) fl
            (f fl) = true := by
          refine extends_safe csp f hf2 _ fl hExt' ?_ ?_ hfl_n
          · intro k hk
            rw [keysOf_append, List.mem_append, List.mem_singleton] at hk
            rcases hk with hk | rfl
            · exact h3 k hk
            · exact hlbound
          · intro k hk heq
            rw [keysOf_append, List.mem_append, List.mem_singleton] at hk
            rcases hk with hk | rfl
            · exact h5 k hk (heq ▸ hfl_u)
            · exact hfl_ne heq.symm
        have hmem' : f fl ∈ csp.get_available_colunas
            (a ++ [(linha, f linha)]) fl :=
          (csp.mem_available_iff _ fl (f fl)).mpr ⟨hf1 fl hfl_n, hsafe'⟩
        rw [hna]
        cases hav : csp.get_available_colunas (a ++ [(linha, f linha)]) fl with
        | nil => rw [hav] at hmem'; simp at hmem'
        | cons x xs => simp
      have hrec : (csp._backtrack fuel (dictInsert a linha (f linha))
          (u.erase linha)).isSome = true := by
        rw [hna]
        refine ih _ _ ?_ hInv' hExt'
        have := List.length_erase linha u
        rw [if_pos hlmem] at this
        have hupos : 1 ≤ u.length := List.length_pos.mpr hu
        omega
      have hbody : ((fun col =>
          let new_assignment := dictInsert a linha col
          let new_unassigned := u.erase linha
          if new_unassigned.all (fun fl =>
              !(csp.get_available_colunas new_assignment fl).isEmpty) then
            csp._backtrack fuel new_assignment new_unassigned
          else none) (f linha)).isSome = true := by
        simp only [hfwd, if_true]
        exact hrec
      unfold _backtrack
      rw [if_neg hbase, hlinha]
      simp only [hav_ne, Bool.false_eq_true, if_false]
      rw [List.findSome?_isSome_iff]
      exact ⟨f linha,
        (vmr_perm csp a linha (csp.get_available_colunas a linha)).mem_iff.mpr
          hfmem, hbody⟩

end NQueensCSP

namespace NQueensCSP

/-- What the search returns at a complete state: the assignment itself,
which the invariants certify as a full valid solution. -/
lemma complete_state_props (csp : NQueensCSP) (a : Assignment)
    (u : List Nat) (hInv : Inv csp a u) (hV : ValidA a)
    (hbase : a.length = csp.n) :
    a.length = csp.n ∧ (keysOf a).Nodup ∧
    (∀ k, k < csp.n → k ∈ keysOf a) ∧
    (∀ p ∈ a, p.1 < csp.n ∧ p.2 < csp.n) ∧ ValidA a := by
  obtain ⟨h1, _, h3, _, _, _, h7⟩ := hInv
  refine ⟨hbase, h1, ?_, ?_, hV⟩
  · refine nodup_bounded_cover (keysOf a) csp.n h1 h3 ?_
    simpa [keysOf] using hbase
  · intro p hp
    exact ⟨h3 p.1 (List.mem_map_of_mem Prod.fst hp), h7 p hp⟩

/-- Soundness of `_backtrack`: whatever the search returns from a state
satisfying the invariants is a complete assignment with one entry per row
`0..n-1` and in-range columns, satisfying the pairwise safety invariant. -/
lemma backtrack_sound (csp : NQueensCSP) :
    ∀ (fuel : Nat) (a : Assignment) (u : List Nat) (r : Assignment),
      Inv csp a u → ValidA a → csp._backtrack fuel a u = some r →
      r.length = csp.n ∧ (keysOf r).Nodup ∧
      (∀ k, k < csp.n → k ∈ keysOf r) ∧
      (∀ p ∈ r, p.1 < csp.n ∧ p.2 < csp.n) ∧ ValidA r := by
  intro fuel
  induction fuel with
  | zero =>
    intro a u r hInv hV h
    unfold _backtrack at h
    by_cases hbase : a.length = csp.n
    · rw [if_pos hbase] at h
      injection h with h
      subst h
      exact complete_state_props csp a u hInv hV hbase
    · rw [if_neg hbase] at h
      exact absurd h (by simp)
  | succ fuel ih =>
    intro a u r hInv hV h
    unfold _backtrack at h
    by_cases hbase : a.length = csp.n
    · rw [if_pos hbase] at h
      injection h with h
      subst h
      exact complete_state_props csp a u hInv hV hbase
    · rw [if_neg hbase] at h
      cases hheu : csp.combined_heuristic a u with
      | none => rw [hheu] at h; exact absurd h (by simp)
      | some linha =>
        rw [hheu] at h
        cases hav : (csp.get_available_colunas a linha).isEmpty with
        | true => simp [hav] at h
        | false =>
          simp only [hav, Bool.false_eq_true, if_false] at h
          obtain ⟨col, hcolmem, hcol⟩ := List.exists_of_findSome?_eq_some h
          by_cases hfwd : ((u.erase linha).all (fun fl =>
              !(csp.get_available_colunas (dictInsert a linha col)
                fl).isEmpty)) = true
          · simp only [hfwd, if_true] at hcol
            have hlmem : linha ∈ u :=
              combined_heuristic_mem csp a u linha hheu
            obtain ⟨h1, h2, h3, h4, h5, h6, h7⟩ := hInv
            have hnotkey : linha ∉ keysOf a := fun hk => h5 linha hk hlmem
            have hcol_av : col ∈ csp.get_available_colunas a linha :=
              (vmr_perm csp a linha _).mem_iff.mp hcolmem
            obtain ⟨hcoln, hsafe⟩ :=
              (csp.mem_available_iff a linha col).mp hcol_av
            have hna : dictInsert a linha col = a ++ [(linha, col)] :=
              dictInsert_of_not_mem a linha col hnotkey
            rw [hna] at hcol
            have hInv' : Inv csp (a ++ [(linha, col)]) (u.erase linha) :=
              Inv_extend csp a u ⟨h1, h2, h3, h4, h5, h6, h7⟩ linha col
                hlmem hcoln
            have hV' : ValidA (a ++ [(linha, col)]) := by
              refine ValidA_extend a linha col hV ?_ hsafe
              intro p hp heq
              exact h5 p.1 (List.mem_map_of_mem Prod.fst hp) (heq ▸ hlmem)
            exact ih _ _ r hInv' hV' hcol
          · simp only [Bool.not_eq_true] at hfwd
            simp [hfwd] at hcol

/-- The `solve` entry state satisfies the search invariant. -/
lemma Inv_init (csp : NQueensCSP) : Inv csp [] (List.range csp.n) := by
  refine ⟨by simp [keysOf], List.nodup_range _, by simp [keysOf], ?_,
    by simp [keysOf], ?_, by simp⟩
  · intro k hk
    exact List.mem_range.mp hk
  · intro k hk
    exact Or.inr (List.mem_range.mpr hk)

/-- `solve` succeeds exactly when a complete non-attacking placement exists,
independently of the heuristic flags. -/
lemma solve_isSome_iff_solvable (csp : NQueensCSP) :
    (csp.solve).isSome = true ↔ Solvable csp.n := by
  constructor
  · intro h
    obtain ⟨r, hr⟩ := Option.isSome_iff_exists.mp h
    obtain ⟨hlen, hnd, hcov, hbounds, hV⟩ :=
      backtrack_sound csp (csp.n + 1) [] (List.range csp.n) r
        (Inv_init csp) (by intro p hp; simp at hp) hr
    refine ⟨fun k => (((r.find? (fun p => p.1 == k)).map Prod.snd).getD 0),
      ?_, ?_⟩
    · intro k hk
      obtain ⟨p, hp, hpk⟩ := List.mem_map.mp (hcov k hk)
      cases hfind : r.find? (fun q => q.1 == k) with
      | none =>
        rw [List.find?_eq_none] at hfind
        exact absurd (by simp [hpk]) (hfind p hp)
      | some q =>
        have hq_mem := List.mem_of_find?_eq_some hfind
        simp only [hfind, Option.map_some', Option.getD_some]
        exact (hbounds q hq_mem).2
    · intro r1 r2 h12 h2n
      obtain ⟨p1, hp1, hpk1⟩ := List.mem_map.mp (hcov r1 (by omega))
      obtain ⟨p2, hp2, hpk2⟩ := List.mem_map.mp (hcov r2 h2n)
      cases hfind1 : r.find? (fun q => q.1 == r1) with
      | none =>
        rw [List.find?_eq_none] at hfind1
        exact absurd (by simp [hpk1]) (hfind1 p1 hp1)
      | some q1 =>
        cases hfind2 : r.find? (fun q => q.1 == r2) with
        | none =>
          rw [List.find?_eq_none] at hfind2
          exact absurd (by simp [hpk2]) (hfind2 p2 hp2)
        | some q2 =>
          have hq1_mem := List.mem_of_find?_eq_some hfind1
          have hq2_mem := List.mem_of_find?_eq_some hfind2
          have hq1_key : q1.1 = r1 := by
            have := List.find?_some hfind1
            simpa using this
          have hq2_key : q2.1 = r2 := by
            have := List.find?_some hfind2
            simpa using this
          have hne : q1.1 ≠ q2.1 := by omega
          obtain ⟨hcne, hdne⟩ := hV q1 hq1_mem q2 hq2_mem hne
          simp only [hfind1, hfind2, Option.map_some', Option.getD_some]
          rw [hq1_key, hq2_key] at hdne
          exact ⟨hcne, by omega⟩
  · intro hsolv
    obtain ⟨f, hf1, hf2⟩ := hsolv
    exact backtrack_complete csp f hf1 hf2 (csp.n + 1) [] (List.range csp.n)
      (by simp) (Inv_init csp) (by intro p hp; simp at hp)

end NQueensCSP

/-! ## Claim theorems: main solver guarantees -/

/-- C1: for every `N ≥ 4` (and any heuristic flags), the solve run returns
an assignment with exactly `N` entries, one per row `0..N-1` (keys are
duplicate-free and cover the rows), with in-range columns, such that every
two entries on distinct rows share no column and no diagonal. -/
theorem C1_solve_finds_valid_solution (csp : NQueensCSP) (h4 : 4 ≤ csp.n) :
    ∃ r, csp.solve = some r ∧ r.length = csp.n ∧
      (∀ row, row < csp.n → row ∈ NQueensCSP.keysOf r) ∧
      (NQueensCSP.keysOf r).Nodup ∧
      (∀ p ∈ r, p.1 < csp.n ∧ p.2 < csp.n) ∧
      (∀ p ∈ r, ∀ q ∈ r, p.1 ≠ q.1 →
        p.2 ≠ q.2 ∧ ((p.1 : Int) - q.1).natAbs ≠ ((p.2 : Int) - q.2).natAbs) := by
  obtain ⟨f, hf1, hf2⟩ := NQueensCSP.solvable_of_four_le csp.n h4
  have hsome := NQueensCSP.backtrack_complete csp f hf1 hf2 (csp.n + 1) []
    (List.range csp.n) (by simp) (NQueensCSP.Inv_init csp)
    (by intro p hp; simp at hp)
  obtain ⟨r, hr⟩ := Option.isSome_iff_exists.mp hsome
  obtain ⟨hlen, hnd, hcov, hbounds, hV⟩ :=
    NQueensCSP.backtrack_sound csp (csp.n + 1) [] (List.range csp.n) r
      (NQueensCSP.Inv_init csp) (by intro p hp; simp at hp) hr
  exact ⟨r, hr, hlen, hcov, hnd, hbounds, hV⟩

/-- Witness for C1 at the concrete instance `N = 4` with all heuristics. -/
theorem C1_witness :
    ∃ r, (NQueensCSP.mk 4 true true true).solve = some r ∧
      r.length = (NQueensCSP.mk 4 true true true).n ∧
      (∀ row, row < (NQueensCSP.mk 4 true true true).n →
        row ∈ NQueensCSP.keysOf r) ∧
      (NQueensCSP.keysOf r).Nodup ∧
      (∀ p ∈ r, p.1 < (NQueensCSP.mk 4 true true true).n ∧
        p.2 < (NQueensCSP.mk 4 true true true).n) ∧
      (∀ p ∈ r, ∀ q ∈ r, p.1 ≠ q.1 →
        p.2 ≠ q.2 ∧
        ((p.1 : Int) - q.1).natAbs ≠ ((p.2 : Int) - q.2).natAbs) :=
  C1_solve_finds_valid_solution (NQueensCSP.mk 4 true true true) (by decide)

/-- C3: for any two heuristic-flag configurations over the same board size,
the two solve runs agree on whether a solution is found (the search is sound
and complete regardless of the row-selection and column-ordering policies,
which only permute the exploration order). -/
theorem C3_heuristics_preserve_outcome (c1 c2 : NQueensCSP)
    (h : c1.n = c2.n) :
    (∃ r, c1.solve = some r) ↔ (∃ r, c2.solve = some r) := by
  rw [← Option.isSome_iff_exists, ← Option.isSome_iff_exists,
    NQueensCSP.solve_isSome_iff_solvable, NQueensCSP.solve_isSome_iff_solvable,
    h]

/-- Witness for C3: `N = 8` with all heuristics on versus all off. -/
theorem C3_witness :
    (∃ r, (NQueensCSP.mk 8 true true true).solve = some r) ↔
    (∃ r, (NQueensCSP.mk 8 false false false).solve = some r) :=
  C3_heuristics_preserve_outcome (NQueensCSP.mk 8 true true true)
    (NQueensCSP.mk 8 false false false) rfl

/-! ## Correctness of the manual binary min-heap -/

namespace ManualMinHeap

/-- Replacing the `k`-th element while keeping the old value in front is a
permutation of putting the new value in front. -/
lemma get_cons_set_perm {α : Type} :
    ∀ (t : List α) (k : Nat) (hk : k < t.length) (a : α),
      (t.get ⟨k, hk⟩ :: t.set k a).Perm (a :: t) := by
  intro t
  induction t with
  | nil => intro k hk; exact absurd hk (by simp)
  | cons y s ih =>
    intro k hk a
    cases k with
    | zero => exact List.Perm.swap _ _ _
    | succ k =>
      have hk' : k < s.length := by simpa using hk
      exact ((List.Perm.swap _ _ _).trans
        (List.Perm.cons y (ih k hk' a))).trans (List.Perm.swap _ _ _)

/-- A two-position swap permutes the list. -/
lemma set_set_perm {α : Type} :
    ∀ (l : List α) (i j : Nat) (hi : i < l.length) (hj : j < l.length),
      ((l.set i (l.get ⟨j, hj⟩)).set j (l.get ⟨i, hi⟩)).Perm l := by
  intro l
  induction l with
  | nil => intro i j hi; exact absurd hi (by simp)
  | cons x t ih =>
    intro i j hi hj
    cases i with
    | zero =>
      cases j with
      | zero => simp
      | succ j =>
        have hj' : j < t.length := by simpa using hj
        simpa using get_cons_set_perm t j hj' x
    | succ i =>
      have hi' : i < t.length := by simpa using hi
      cases j with
      | zero =>
        simpa using get_cons_set_perm t i hi' x
      | succ j =>
        have hj' : j < t.length := by simpa using hj
        simpa using List.Perm.cons x (ih i j hi' hj')

/-- `listSwap` at in-range indices really is the two-position swap. -/
lemma listSwap_eq {α : Type} (l : List α) (i j : Nat)
    (hi : i < l.length) (hj : j < l.length) :
    listSwap l i j = (l.set i (l.get ⟨j, hj⟩)).set j (l.get ⟨i, hi⟩) := by
  unfold listSwap
  rw [List.getElem?_eq_getElem hi, List.getElem?_eq_getElem hj]
  simp [List.get_eq_getElem]

/-- `listSwap` preserves the multiset of elements. -/
lemma listSwap_perm {α : Type} (l : List α) (i j : Nat)
    (hi : i < l.length) (hj : j < l.length) :
    (listSwap l i j).Perm l := by
  rw [listSwap_eq l i j hi hj]
  exact set_set_perm l i j hi hj

/-- `listSwap` preserves length. -/
lemma listSwap_length {α : Type} (l : List α) (i j : Nat)
    (hi : i < l.length) (hj : j < l.length) :
    (listSwap l i j).length = l.length := by
  rw [listSwap_eq l i j hi hj]
  simp

/-- Reading the swapped list. -/
lemma listSwap_get {α : Type} (l : List α) (i j : Nat)
    (hi : i < l.length) (hj : j < l.length) (k : Nat)
    (hk : k < (listSwap l i j).length) (hk' : k < l.length) :
    (listSwap l i j).get ⟨k, hk⟩ =
      if k = i then l.get ⟨j, hj⟩
      else if k = j then l.get ⟨i, hi⟩
      else l.get ⟨k, hk'⟩ := by
  simp only [List.get_eq_getElem]
  have he := listSwap_eq l i j hi hj
  simp only [List.get_eq_getElem] at he
  by_cases hki : k = i
  · subst hki
    rw [if_pos rfl]
    simp only [he]
    by_cases hkj : k = j
    · subst hkj
      rw [List.getElem_set_self]
    · rw [List.getElem_set_ne (by omega), List.getElem_set_self]
  · rw [if_neg hki]
    simp only [he]
    by_cases hkj : k = j
    · subst hkj
      rw [if_pos rfl, List.getElem_set_self]
    · rw [if_neg hkj, List.getElem_set_ne (by omega),
        List.getElem_set_ne (by omega)]

/-- The guarded comparison at in-range indices. -/
lemma hlt_iff {α : Type} [LinearOrder α] (l : List α) (i j : Nat)
    (hi : i < l.length) (hj : j < l.length) :
    hlt l i j = true ↔ l.get ⟨i, hi⟩ < l.get ⟨j, hj⟩ := by
  unfold hlt
  rw [List.getElem?_eq_getElem hi, List.getElem?_eq_getElem hj]
  simp [List.get_eq_getElem]

/-- In a min-heap the root is a global minimum. -/
lemma root_le {α : Type} [LinearOrder α] (l : List α) (hheap : IsMinHeap l) :
    ∀ k (hk : k < l.length) (h0 : 0 < l.length),
      l.get ⟨0, h0⟩ ≤ l.get ⟨k, hk⟩ := by
  intro k
  induction k using Nat.strong_induction_on with
  | _ k ih =>
    intro hk h0
    cases k with
    | zero => exact le_refl _
    | succ k' =>
      have hp : (k' + 1 - 1) / 2 < k' + 1 := by omega
      have hpl : (k' + 1 - 1) / 2 < l.length := by omega
      have hch : k' + 1 = 2 * ((k' + 1 - 1) / 2) + 1 ∨
          k' + 1 = 2 * ((k' + 1 - 1) / 2) + 2 := by omega
      exact le_trans (ih _ hp hpl h0) (hheap _ _ hpl hk hch)

end ManualMinHeap

namespace ManualMinHeap

/-- One upward swap rebuilds the bubbling invariants at the parent. -/
lemma upInv_swap {α : Type} [LinearOrder α] (l : List α) (i : Nat)
    (hipos : 0 < i) (hil : i < l.length)
    (hU : UpInv l i) (hG : ParentBelowInv l i)
    (hpl : (i - 1) / 2 < l.length)
    (hlt' : l.get ⟨i, hil⟩ < l.get ⟨(i - 1) / 2, hpl⟩) :
    UpInv (listSwap l i ((i - 1) / 2)) ((i - 1) / 2) ∧
    ParentBelowInv (listSwap l i ((i - 1) / 2)) ((i - 1) / 2) := by
  have hpi : (i - 1) / 2 ≠ i := by omega
  constructor
  · intro q c hq hc hch hcp
    have hq0 : q < l.length := by
      have := listSwap_length l i ((i - 1) / 2) hil hpl
      omega
    have hc0 : c < l.length := by
      have := listSwap_length l i ((i - 1) / 2) hil hpl
      omega
    rw [listSwap_get l i ((i - 1) / 2) hil hpl q hq hq0,
      listSwap_get l i ((i - 1) / 2) hil hpl c hc hc0]
    by_cases hqi : q = i
    · subst hqi
      rw [if_pos rfl]
      have hci : c ≠ q := by omega
      have hcp' : c ≠ (q - 1) / 2 := by omega
      rw [if_neg hci, if_neg hcp']
      exact hG hipos c hc0 hch hpl
    · rw [if_neg hqi]
      by_cases hqp : q = (i - 1) / 2
      · rw [if_pos hqp]
        by_cases hci : c = i
        · rw [if_pos hci]
          exact le_of_lt hlt'
        · rw [if_neg hci, if_neg hcp]
          exact le_trans (le_of_lt hlt')
            (hU ((i - 1) / 2) c hpl hc0 (hqp ▸ hch) hci)
      · rw [if_neg hqp]
        by_cases hci : c = i
        · exact absurd (by omega) hqp
        · rw [if_neg hci, if_neg hcp]
          exact hU q c hq0 hc0 hch hci
  · intro hppos c hc hch hgl
    have hc0 : c < l.length := by
      have := listSwap_length l i ((i - 1) / 2) hil hpl
      omega
    have hg0 : ((i - 1) / 2 - 1) / 2 < l.length := by
      have := listSwap_length l i ((i - 1) / 2) hil hpl
      omega
    rw [listSwap_get l i ((i - 1) / 2) hil hpl _ hgl hg0,
      listSwap_get l i ((i - 1) / 2) hil hpl c hc hc0]
    have hgi : ((i - 1) / 2 - 1) / 2 ≠ i := by omega
    have hgp : ((i - 1) / 2 - 1) / 2 ≠ (i - 1) / 2 := by omega
    rw [if_neg hgi, if_neg hgp]
    have hrelgp : (i - 1) / 2 = 2 * (((i - 1) / 2 - 1) / 2) + 1 ∨
        (i - 1) / 2 = 2 * (((i - 1) / 2 - 1) / 2) + 2 := by omega
    have hgp_le : l.get ⟨((i - 1) / 2 - 1) / 2, hg0⟩ ≤
        l.get ⟨(i - 1) / 2, hpl⟩ :=
      hU _ ((i - 1) / 2) hg0 hpl hrelgp hpi
    by_cases hci : c = i
    · rw [if_pos hci]
      exact hgp_le
    · have hcp' : c ≠ (i - 1) / 2 := by omega
      rw [if_neg hci, if_neg hcp']
      exact le_trans hgp_le (hU ((i - 1) / 2) c hpl hc0 hch hci)

/-- `_bubble_up` with sufficient fuel permutes the array and restores the
full heap property from the bubbling invariants. -/
lemma bubble_up_go_correct {α : Type} [LinearOrder α] :
    ∀ (fuel : Nat) (l : List α) (i : Nat), i < fuel → i < l.length →
      UpInv l i → ParentBelowInv l i →
      (bubble_up_go fuel l i).Perm l ∧ IsMinHeap (bubble_up_go fuel l i) := by
  intro fuel
  induction fuel with
  | zero =>
    intro l i hif
    exact absurd hif (Nat.not_lt_zero _)
  | succ fuel ih =>
    intro l i hif hil hU hG
    simp only [bubble_up_go]
    by_cases hcond : 0 < i ∧ hlt l i ((i - 1) / 2) = true
    · rw [if_pos hcond]
      obtain ⟨hipos, hswap⟩ := hcond
      have hpl : (i - 1) / 2 < l.length := by omega
      have hlt' : l.get ⟨i, hil⟩ < l.get ⟨(i - 1) / 2, hpl⟩ :=
        (hlt_iff l i ((i - 1) / 2) hil hpl).mp hswap
      obtain ⟨hU', hG'⟩ := upInv_swap l i hipos hil hU hG hpl hlt'
      have hlen := listSwap_length l i ((i - 1) / 2) hil hpl
      obtain ⟨hperm, hheap⟩ := ih (listSwap l i ((i - 1) / 2)) ((i - 1) / 2)
        (by omega) (by omega) hU' hG'
      exact ⟨hperm.trans (listSwap_perm l i ((i - 1) / 2) hil hpl), hheap⟩
    · rw [if_neg hcond]
      refine ⟨List.Perm.refl l, ?_⟩
      intro q c hq hc hch
      by_cases hci : c = i
      · subst hci
        have hcpos : 0 < c := by omega
        have hnlt : ¬ hlt l c ((c - 1) / 2) = true := fun hh =>
          hcond ⟨hcpos, hh⟩
        have hpl2 : (c - 1) / 2 < l.length := by omega
        rw [hlt_iff l c ((c - 1) / 2) hc hpl2] at hnlt
        have hqeq : q = (c - 1) / 2 := by omega
        subst hqeq
        exact not_lt.mp hnlt
      · exact hU q c hq hc hch hci

/-- `push` keeps the heap property and adds exactly the pushed element. -/
lemma push_correct {α : Type} [LinearOrder α] (l : List α) (x : α)
    (hheap : IsMinHeap l) :
    IsMinHeap (push l x) ∧ (push l x).Perm (x :: l) := by
  have hlen : (l ++ [x]).length = l.length + 1 := by simp
  have hU : UpInv (l ++ [x]) l.length := by
    intro p c hp hc hch hci
    have hc0 : c < l.length := by omega
    have hp0 : p < l.length := by omega
    have hvp : (l ++ [x]).get ⟨p, hp⟩ = l.get ⟨p, hp0⟩ := by
      simp only [List.get_eq_getElem]
      exact List.getElem_append_left hp0
    have hvc : (l ++ [x]).get ⟨c, hc⟩ = l.get ⟨c, hc0⟩ := by
      simp only [List.get_eq_getElem]
      exact List.getElem_append_left hc0
    rw [hvp, hvc]
    exact hheap p c hp0 hc0 hch
  have hG : ParentBelowInv (l ++ [x]) l.length := by
    intro hpos c hc hch hp
    exfalso
    omega
  unfold push bubble_up
  have hidx : (l ++ [x]).length - 1 = l.length := by omega
  rw [hidx]
  obtain ⟨hperm, hheap'⟩ := bubble_up_go_correct (l.length + 1) (l ++ [x])
    l.length (by omega) (by omega) hU hG
  exact ⟨hheap', hperm.trans (List.perm_append_singleton x l)⟩

end ManualMinHeap

namespace ManualMinHeap

/-- One downward swap rebuilds the bubbling invariants at the chosen
child. -/
lemma downInv_swap {α : Type} [LinearOrder α] (l : List α) (i s : Nat)
    (hil : i < l.length) (hsl : s < l.length)
    (hD : DownInv l i) (hP : ParentBelowInv l i)
    (hchild : s = 2 * i + 1 ∨ s = 2 * i + 2)
    (hlt' : l.get ⟨s, hsl⟩ < l.get ⟨i, hil⟩)
    (hother : ∀ o (ho : o < l.length), (o = 2 * i + 1 ∨ o = 2 * i + 2) →
      l.get ⟨s, hsl⟩ ≤ l.get ⟨o, ho⟩) :
    DownInv (listSwap l i s) s ∧ ParentBelowInv (listSwap l i s) s := by
  have hsi : s ≠ i := by omega
  constructor
  · intro q c hq hc hch hqs
    have hq0 : q < l.length := by
      have := listSwap_length l i s hil hsl
      omega
    have hc0 : c < l.length := by
      have := listSwap_length l i s hil hsl
      omega
    rw [listSwap_get l i s hil hsl q hq hq0,
      listSwap_get l i s hil hsl c hc hc0]
    by_cases hqi : q = i
    · subst hqi
      rw [if_pos rfl]
      have hci : c ≠ q := by omega
      rw [if_neg hci]
      by_cases hcs : c = s
      · rw [if_pos hcs]
        exact le_of_lt hlt'
      · rw [if_neg hcs]
        exact hother c hc0 hch
    · rw [if_neg hqi]
      rw [if_neg hqs]
      by_cases hci : c = i
      · rw [if_pos hci]
        have hipos : 0 < i := by omega
        have hqpar : q = (i - 1) / 2 := by omega
        subst hqpar
        exact hP hipos s hsl hchild hq0
      · rw [if_neg hci]
        have hcs : c ≠ s := by omega
        rw [if_neg hcs]
        exact hD q c hq0 hc0 hch hqi
  · intro hspos c hc hch hpar
    have hc0 : c < l.length := by
      have := listSwap_length l i s hil hsl
      omega
    have hpar0 : (s - 1) / 2 < l.length := by
      have := listSwap_length l i s hil hsl
      omega
    rw [listSwap_get l i s hil hsl _ hpar hpar0,
      listSwap_get l i s hil hsl c hc hc0]
    have hpi : (s - 1) / 2 = i := by omega
    rw [if_pos hpi]
    have hci : c ≠ i := by omega
    have hcs : c ≠ s := by omega
    rw [if_neg hci, if_neg hcs]
    exact hD s c hsl hc0 hch hsi

/-- `_bubble_down` with sufficient fuel permutes the array and restores the
full heap property from the bubbling invariants. -/
lemma bubble_down_go_correct {α : Type} [LinearOrder α] :
    ∀ (fuel : Nat) (l : List α) (i : Nat), l.length ≤ fuel + i →
      i < l.length → DownInv l i → ParentBelowInv l i →
      (bubble_down_go fuel l i).Perm l ∧ IsMinHeap (bubble_down_go fuel l i) := by
  intro fuel
  induction fuel with
  | zero =>
    intro l i hfl hil
    exact absurd hfl (by omega)
  | succ fuel ih =>
    intro l i hfl hil hD hP
    simp only [bubble_down_go]
    by_cases hl1 : 2 * i + 1 < l.length ∧ hlt l (2 * i + 1) i = true
    · rw [if_pos hl1]
      obtain ⟨hlb, hllt⟩ := hl1
      have hllt' : l.get ⟨2 * i + 1, hlb⟩ < l.get ⟨i, hil⟩ :=
        (hlt_iff l (2 * i + 1) i hlb hil).mp hllt
      by_cases hr : 2 * i + 2 < l.length ∧ hlt l (2 * i + 2) (2 * i + 1) = true
      · rw [if_pos hr]
        obtain ⟨hrb, hrlt⟩ := hr
        have hrlt' : l.get ⟨2 * i + 2, hrb⟩ < l.get ⟨2 * i + 1, hlb⟩ :=
          (hlt_iff l (2 * i + 2) (2 * i + 1) hrb hlb).mp hrlt
        rw [if_pos (by omega)]
        have hother : ∀ o (ho : o < l.length),
            (o = 2 * i + 1 ∨ o = 2 * i + 2) →
            l.get ⟨2 * i + 2, hrb⟩ ≤ l.get ⟨o, ho⟩ := by
          intro o ho hor
          rcases hor with rfl | rfl
          · exact le_of_lt hrlt'
          · exact le_refl _
        obtain ⟨hD', hP'⟩ := downInv_swap l i (2 * i + 2) hil hrb hD hP
          (Or.inr rfl) (lt_trans hrlt' hllt') hother
        have hlen := listSwap_length l i (2 * i + 2) hil hrb
        obtain ⟨hperm, hheap⟩ := ih (listSwap l i (2 * i + 2)) (2 * i + 2)
          (by omega) (by omega) hD' hP'
        exact ⟨hperm.trans (listSwap_perm l i (2 * i + 2) hil hrb), hheap⟩
      · rw [if_neg hr]
        rw [if_pos (by omega)]
        have hother : ∀ o (ho : o < l.length),
            (o = 2 * i + 1 ∨ o = 2 * i + 2) →
            l.get ⟨2 * i + 1, hlb⟩ ≤ l.get ⟨o, ho⟩ := by
          intro o ho hor
          rcases hor with rfl | rfl
          · exact le_refl _
          · have hnlt : ¬ hlt l (2 * i + 2) (2 * i + 1) = true := fun hh =>
              hr ⟨ho, hh⟩
            rw [hlt_iff l (2 * i + 2) (2 * i + 1) ho hlb] at hnlt
            exact not_lt.mp hnlt
        obtain ⟨hD', hP'⟩ := downInv_swap l i (2 * i + 1) hil hlb hD hP
          (Or.inl rfl) hllt' hother
        have hlen := listSwap_length l i (2 * i + 1) hil hlb
        obtain ⟨hperm, hheap⟩ := ih (listSwap l i (2 * i + 1)) (2 * i + 1)
          (by omega) (by omega) hD' hP'
        exact ⟨hperm.trans (listSwap_perm l i (2 * i + 1) hil hlb), hheap⟩
    · rw [if_neg hl1]
      by_cases hr : 2 * i + 2 < l.length ∧ hlt l (2 * i + 2) i = true
      · rw [if_pos hr]
        obtain ⟨hrb, hrlt⟩ := hr
        have hrlt' : l.get ⟨2 * i + 2, hrb⟩ < l.get ⟨i, hil⟩ :=
          (hlt_iff l (2 * i + 2) i hrb hil).mp hrlt
        rw [if_pos (by omega)]
        have hother : ∀ o (ho : o < l.length),
            (o = 2 * i + 1 ∨ o = 2 * i + 2) →
            l.get ⟨2 * i + 2, hrb⟩ ≤ l.get ⟨o, ho⟩ := by
          intro o ho hor
          rcases hor with rfl | rfl
          · have hnlt : ¬ hlt l (2 * i + 1) i = true := fun hh =>
              hl1 ⟨ho, hh⟩
            rw [hlt_iff l (2 * i + 1) i ho hil] at hnlt
            exact le_trans (le_of_lt hrlt') (not_lt.mp hnlt)
          · exact le_refl _
        obtain ⟨hD', hP'⟩ := downInv_swap l i (2 * i + 2) hil hrb hD hP
          (Or.inr rfl) hrlt' hother
        have hlen := listSwap_length l i (2 * i + 2) hil hrb
        obtain ⟨hperm, hheap⟩ := ih (listSwap l i (2 * i + 2)) (2 * i + 2)
          (by omega) (by omega) hD' hP'
        exact ⟨hperm.trans (listSwap_perm l i (2 * i + 2) hil hrb), hheap⟩
      · rw [if_neg hr]
        rw [if_neg (by omega)]
        refine ⟨List.Perm.refl l, ?_⟩
        intro q c hq hc hch
        by_cases hqi : q = i
        · subst hqi
          rcases hch with rfl | rfl
          · have hnlt : ¬ hlt l (2 * q + 1) q = true := fun hh =>
              hl1 ⟨hc, hh⟩
            rw [hlt_iff l (2 * q + 1) q hc hq] at hnlt
            exact not_lt.mp hnlt
          · have hnlt : ¬ hlt l (2 * q + 2) q = true := fun hh =>
              hr ⟨hc, hh⟩
            rw [hlt_iff l (2 * q + 2) q hc hq] at hnlt
            exact not_lt.mp hnlt
        · exact hD q c hq hc hch hqi

end ManualMinHeap

namespace ManualMinHeap

/-- `pop` on a non-empty min-heap returns a global minimum, removes exactly
one occurrence of it, and leaves a min-heap. -/
lemma pop_spec {α : Type} [LinearOrder α] (l : List α) (hheap : IsMinHeap l)
    (hne : l ≠ []) :
    ∃ x l', pop l = (some x, l') ∧ (∀ y ∈ l, x ≤ y) ∧ (x :: l').Perm l ∧
      IsMinHeap l' := by
  match l, hne with
  | [x], _ =>
    refine ⟨x, [], rfl, ?_, by simp, ?_⟩
    · intro y hy
      rw [List.mem_singleton] at hy
      rw [hy]
    · intro i j hi hj hch
      exact absurd hj (by simp)
  | x :: y :: rest, _ =>
    set last := (y :: rest).getLast (List.cons_ne_nil y rest) with hlast
    set l0 := ((x :: y :: rest).dropLast).set 0 last with hl0
    have hLlen : (x :: y :: rest).length = rest.length + 2 := by simp
    have hl0len : l0.length = rest.length + 1 := by
      rw [hl0]
      simp
    have hval : ∀ k (hk : k < l0.length), k ≠ 0 →
        ∀ hkL : k < (x :: y :: rest).length,
        l0.get ⟨k, hk⟩ = (x :: y :: rest).get ⟨k, hkL⟩ := by
      intro k hk hk0 hkL
      simp only [List.get_eq_getElem, hl0]
      rw [List.getElem_set_ne (by omega)]
      exact List.getElem_dropLast _ k _
    have hD : DownInv l0 0 := by
      intro p c hp hc hch hp0
      have hpL : p < (x :: y :: rest).length := by omega
      have hcL : c < (x :: y :: rest).length := by omega
      rw [hval p hp hp0 hpL, hval c hc (by omega) hcL]
      exact hheap p c hpL hcL hch
    have hP : ParentBelowInv l0 0 := fun h0 => absurd h0 (lt_irrefl 0)
    obtain ⟨hperm, hheap'⟩ := bubble_down_go_correct l0.length l0 0
      (by omega) (by omega) hD hP
    have hl0eq : l0 = last :: (y :: rest).dropLast := by
      rw [hl0, List.dropLast_cons₂, List.set_cons_zero]
    have hl0perm : l0.Perm (y :: rest) := by
      rw [hl0eq]
      have hdl : (y :: rest).dropLast ++ [last] = y :: rest := by
        rw [hlast]
        exact List.dropLast_append_getLast (List.cons_ne_nil y rest)
      have hx := (List.perm_append_singleton last ((y :: rest).dropLast)).symm
      rw [hdl] at hx
      exact hx
    refine ⟨x, bubble_down l0 0, rfl, ?_, ?_, ?_⟩
    · intro z hz
      obtain ⟨⟨k, hk⟩, hget⟩ := List.mem_iff_get.mp hz
      rw [← hget]
      exact root_le (x :: y :: rest) hheap k hk (by simp)
    · exact List.Perm.cons x (hperm.trans hl0perm)
    · exact hheap'

end ManualMinHeap

/-! ## Claim theorems: the binary min-heap -/

/-- C9: `ManualMinHeap` is a binary min-heap with respect to the order `<`
used by its element comparisons — for the tuples `(f, g, board)` the queue
stores, that is Python's natural lexicographic tuple ordering (ties broken
by `g`, then by the board encoding), which is exactly a linear order, so the
statement is proved for every linear order.  The fresh heap is (vacuously) a
min-heap, `push` preserves the heap shape and adds exactly the pushed item,
and on every non-empty heap reachable by such operations `pop` removes and
returns a minimal element of the current contents and leaves a min-heap. -/
theorem C9_manual_min_heap_correct (α : Type) [LinearOrder α] :
    ManualMinHeap.IsMinHeap ([] : List α) ∧
    (∀ (l : List α) (x : α), ManualMinHeap.IsMinHeap l →
      ManualMinHeap.IsMinHeap (ManualMinHeap.push l x) ∧
      (ManualMinHeap.push l x).Perm (x :: l)) ∧
    (∀ l : List α, ManualMinHeap.IsMinHeap l → l ≠ [] →
      ∃ x l', ManualMinHeap.pop l = (some x, l') ∧ (∀ y ∈ l, x ≤ y) ∧
        (x :: l').Perm l ∧ ManualMinHeap.IsMinHeap l') := by
  refine ⟨?_, ?_, ?_⟩
  · intro i j hi hj hch
    exact absurd hj (by simp)
  · exact fun l x hheap => ManualMinHeap.push_correct l x hheap
  · exact fun l hheap hne => ManualMinHeap.pop_spec l hheap hne

/-- Witness for C9: pushing `5` then `2` then `7` onto the empty natural
heap and popping returns the minimum `2` and leaves the other elements. -/
theorem C9_witness :
    ∃ x l', ManualMinHeap.pop
        (ManualMinHeap.push (ManualMinHeap.push
          (ManualMinHeap.push ([] : List Nat) 5) 2) 7) = (some x, l') ∧
      (∀ y ∈ ManualMinHeap.push (ManualMinHeap.push
          (ManualMinHeap.push ([] : List Nat) 5) 2) 7, x ≤ y) ∧
      (x :: l').Perm (ManualMinHeap.push (ManualMinHeap.push
          (ManualMinHeap.push ([] : List Nat) 5) 2) 7) ∧
      ManualMinHeap.IsMinHeap l' := by
  have h0 : ManualMinHeap.IsMinHeap ([] : List Nat) :=
    (C9_manual_min_heap_correct Nat).1
  have h1 := ((C9_manual_min_heap_correct Nat).2.1 [] 5 h0).1
  have h2 := ((C9_manual_min_heap_correct Nat).2.1
    (ManualMinHeap.push ([] : List Nat) 5) 2 h1).1
  have h3 := ((C9_manual_min_heap_correct Nat).2.1
    (ManualMinHeap.push (ManualMinHeap.push ([] : List Nat) 5) 2) 7 h2).1
  exact (C9_manual_min_heap_correct Nat).2.2 _ h3 (by decide)
